import Mathlib

/-!
A shallow embedding of the two source modules of wcs-deployment-utils
(assets/common/load_dialog_data.py and
wcs_deployment_utils/entities/load_csv_as_entity_data.py), together with
theorems checking the natural-language specification of the repository
against the embedding.  Remote service effects are represented by explicit
request traces; the service responses that the code consults are passed in
as oracle arguments.
-/

/-- A dialog node as held in a workspace export.  Each field mirrors one key
of the JSON dictionary produced by the service; keys whose value may be null
are modelled as `Option String`. -/
structure DialogNode where
  dialog_node : String
  title : Option String
  parent : Option String
  previous_sibling : Option String
  digress_in : Option String
  digress_out : Option String
  digress_out_slots : Option String
deriving DecidableEq, Repr

/-- Python str() applied to a possibly-null JSON string field: a null value
prints as the four-character string None. -/
def pyStr : Option String → String
  | none => "None"
  | some s => s

/-- ASCII lowercasing of one character, as Python str.lower() acts on the
ASCII identifiers and titles this embedding handles. -/
def pyLowerChar (c : Char) : Char :=
  if 65 ≤ c.toNat ∧ c.toNat ≤ 90 then Char.ofNat (c.toNat + 32) else c

/-- Python str.lower() on ASCII strings. -/
def pyLower (s : String) : String := ⟨s.data.map pyLowerChar⟩

/-- The match test inside the loop of _find_node: case-insensitive
comparison of the identifier against str() of the title and of the id. -/
def node_matches (node_id : String) (node : DialogNode) : Bool :=
  pyLower (pyStr node.title) == pyLower node_id
    || pyLower node.dialog_node == pyLower node_id

/-- The search loop of _find_node: the first node of the list that matches
wins (the source assigns and breaks). -/
def find_loop (node_id : String) : List DialogNode → Option DialogNode
  | [] => none
  | node :: rest =>
    if node_matches node_id node then some node else find_loop node_id rest

/-- _find_node from load_dialog_data.py: the identifier root is a sentinel
resolving to no node; otherwise the first case-insensitive match on title or
id wins. -/
def _find_node (node_id : String) (dialog_nodes : List DialogNode) :
    Option DialogNode :=
  if node_id = "root" then none
  else find_loop node_id dialog_nodes

/-- Position-aware variant of the search loop of _find_node: the nodes
before the first match, the match itself, and the nodes after it.  It is
used below to embed the in-place mutation of the found source root inside
the export list held by copy_dialog_data. -/
def find_split (node_id : String) :
    List DialogNode → Option (List DialogNode × DialogNode × List DialogNode)
  | [] => none
  | node :: rest =>
    if node_matches node_id node then some ([], node, rest)
    else
      match find_split node_id rest with
      | none => none
      | some (pre, m, suf) => some (node :: pre, m, suf)

/-- _find_node together with the position information of find_split. -/
def find_node_split (node_id : String) (dialog_nodes : List DialogNode) :
    Option (List DialogNode × DialogNode × List DialogNode) :=
  if node_id = "root" then none
  else find_split node_id dialog_nodes

/-- One scan of the node list for the nodes whose parent field equals the
dequeued id (the inner for-loop of the collection loop). -/
def children (L : List DialogNode) (id_to_locate : String) : List DialogNode :=
  L.filter (fun node => node.parent == some id_to_locate)

/-- The subtree collection loop of copy_dialog_data: each iteration dequeues
one id and appends every node listing it as parent both to to_import and to
the queue.  The Python while-loop runs until the queue is empty; here a fuel
argument bounds the number of iterations, and the development below shows
that on an acyclic forest L.length iterations always drain the queue, so the
fuelled loop and the unbounded loop agree there. -/
def collect_loop (L : List DialogNode) :
    Nat → List DialogNode → List String → List DialogNode
  | 0, to_import, _ => to_import
  | _ + 1, to_import, [] => to_import
  | fuel + 1, to_import, id_to_locate :: rest =>
    collect_loop L fuel (to_import ++ children L id_to_locate)
      (rest ++ (children L id_to_locate).map (fun n => n.dialog_node))

/-- The collected subtree: the root is seeded into to_import and its id into
the queue, then the collection loop runs. -/
def subtree (L : List DialogNode) (root : DialogNode) : List DialogNode :=
  collect_loop L L.length [root] [root.dialog_node]

/-- The short-circuit condition guarding the digression clearing in
copy_dialog_data: the insert mode is not sibling, or the target root is
unresolved, or the resolved target root has a parent. -/
def digress_clear_cond (target_insert_as : String)
    (target_root : Option DialogNode) : Bool :=
  !(target_insert_as == "sibling")
    || (match target_root with
        | none => true
        | some tr => tr.parent.isSome)

/-- The digression-clearing step of copy_dialog_data: when the condition
holds, the three digression fields of the source root are set to None. -/
def strip_digressions (target_insert_as : String)
    (target_root : Option DialogNode) (source_root : DialogNode) : DialogNode :=
  if digress_clear_cond target_insert_as target_root then
    { source_root with
        digress_out_slots := none, digress_out := none, digress_in := none }
  else source_root

/-- The reparent step of copy_dialog_data: an unresolved target root means
the workspace top level; a resolved target root is used according to the
insertion mode; any other mode string falls through leaving the fields of
the source root unchanged. -/
def set_parent_sibling (target_insert_as : String)
    (target_root : Option DialogNode) (source_root : DialogNode) : DialogNode :=
  match target_root with
  | none => { source_root with parent := none, previous_sibling := none }
  | some tr =>
    if target_insert_as = "sibling" then
      { source_root with
          parent := tr.parent, previous_sibling := some tr.dialog_node }
    else if target_insert_as = "child" then
      { source_root with
          parent := some tr.dialog_node, previous_sibling := none }
    else source_root

/-- One remote call against the dialog service, as issued by
copy_dialog_data, in issue order. -/
inductive WcsRequest where
  | getWorkspace (workspace : String)
  | deleteDialogNode (workspace : String) (dialog_node : String)
  | updateWorkspaceAppend (workspace : String) (dialog_nodes : List DialogNode)
deriving DecidableEq, Repr

/-- The conflict-clearing loop of copy_dialog_data: one delete request per
collected node.  The SDK call may raise a WatsonException (oracle delete_ok
returning false) but the except-pass handler continues with the next node
either way, which the two identical branches of the if mirror. -/
def conflict_clear (delete_ok : String → Bool) (target_workspace : String) :
    List DialogNode → List WcsRequest
  | [] => []
  | node :: rest =>
    if delete_ok node.dialog_node then
      WcsRequest.deleteDialogNode target_workspace node.dialog_node
        :: conflict_clear delete_ok target_workspace rest
    else
      WcsRequest.deleteDialogNode target_workspace node.dialog_node
        :: conflict_clear delete_ok target_workspace rest

/-- copy_dialog_data from load_dialog_data.py, embedded as the list of
requests issued against the service together with the outcome.  The two
workspace exports are inputs and the two get requests are recorded;
delete_ok and update_ok stand for the responses to the delete calls and to
the final update call.  The in-place mutation of the found source root
inside the export list is embedded by reassembling the list around the
rewritten root, which keeps its original position. -/
def copy_dialog_data (root_node target_node target_insert_as : String)
    (source_workspace target_workspace : String)
    (source_nodes target_nodes : List DialogNode)
    (delete_ok : String → Bool) (update_ok : Bool) :
    List WcsRequest × Except String (List DialogNode) :=
  let mode := pyLower target_insert_as
  let gets : List WcsRequest :=
    [WcsRequest.getWorkspace source_workspace,
     WcsRequest.getWorkspace target_workspace]
  match find_node_split root_node source_nodes with
  | none => (gets, Except.error "Specified root node not found")
  | some (pre, source_root, suf) =>
    let target_root := _find_node target_node target_nodes
    let root1 := strip_digressions mode target_root source_root
    let root2 := set_parent_sibling mode target_root root1
    let mutated := pre ++ root2 :: suf
    let to_import := subtree mutated root2
    (gets ++ conflict_clear delete_ok target_workspace to_import
          ++ [WcsRequest.updateWorkspaceAppend target_workspace to_import],
     if update_ok then Except.ok to_import
     else Except.error "Dialog update failed")

/-- One effect of load_csv_as_entity_data, in issue order.  The backup
itself performs the remote export; reading the CSV and loading the entity
data are delegated to collaborators that are opaque here. -/
inductive EntityOp where
  | backupWorkspace (workspace : String) (path : String)
  | readCsv (path : String)
  | loadEntityData (workspace : String) (clear_existing : Bool)
deriving DecidableEq, Repr

/-- Modelled from the spec: the module-level sentinel _DEFAULT_BACKUP_FILE
(its defining module _constants.py is not among the sources); only its role
as a sentinel default value matters here. -/
def _DEFAULT_BACKUP_FILE : String := "default_backup_sentinel.json"

/-- Modelled from the spec: when the caller keeps the default, the backup
path is built from a POSIX timestamp; now stands for
datetime.now().timestamp(). -/
def format_default_backup (now : String) : String :=
  "workspace_backup_" ++ now ++ ".json"

/-- load_csv_as_entity_data from load_csv_as_entity_data.py: the five
required parameters are validated in listed order before anything else
happens; afterwards the workspace is backed up, the CSV is read and the
entity data is loaded. -/
def load_csv_as_entity_data (conversation_username conversation_password
    version workspace csv_file : Option String) (clear_existing : Bool)
    (target_backup_file : String) (now : String) :
    List EntityOp × Except String Unit :=
  match conversation_username with
  | none => ([], Except.error "Argument conversation_username requires a value")
  | some _ =>
  match conversation_password with
  | none => ([], Except.error "Argument conversation_password requires a value")
  | some _ =>
  match version with
  | none => ([], Except.error "Argument version requires a value")
  | some _ =>
  match workspace with
  | none => ([], Except.error "Argument workspace requires a value")
  | some w =>
  match csv_file with
  | none => ([], Except.error "Argument csv_file requires a value")
  | some cf =>
    let path := if target_backup_file = _DEFAULT_BACKUP_FILE
                then format_default_backup now else target_backup_file
    ([EntityOp.backupWorkspace w path, EntityOp.readCsv cf,
      EntityOp.loadEntityData w clear_existing],
     Except.ok ())

/-- Depth-indexed reachability from the root along the parent back-relation:
reachD L root d x holds when x is reached from root by d child steps inside
L. -/
inductive reachD (L : List DialogNode) (root : DialogNode) :
    Nat → DialogNode → Prop
  | refl : reachD L root 0 root
  | step {d : Nat} {x y : DialogNode} :
      reachD L root d x → y ∈ L → y.parent = some x.dialog_node →
      reachD L root (d + 1) y

/-- x is the root itself or a transitive descendant of it inside L. -/
def reachable (L : List DialogNode) (root : DialogNode)
    (x : DialogNode) : Prop :=
  ∃ d, reachD L root d x

/-- Acyclicity of the parent relation of a finite node list, stated through
a rank function that increases from parent to child; for finite graphs this
is equivalent to the absence of cycles. -/
def acyclicForest (L : List DialogNode) : Prop :=
  ∃ rk : String → Nat, ∀ m ∈ L, ∀ n ∈ L,
    m.parent = some n.dialog_node → rk n.dialog_node < rk m.dialog_node

/-- a precedes b in breadth-first order: every depth of a is at most every
depth of b. -/
def depthLE (L : List DialogNode) (root : DialogNode)
    (a b : DialogNode) : Prop :=
  ∀ da db, reachD L root da a → reachD L root db b → da ≤ db

/-- Invariant of the collection loop, stated on the processed prefix done
and the pending part of to_import: the loop state has to_import equal to
done ++ pending and the queue holding exactly the ids of pending. -/
structure LoopInv (L : List DialogNode) (root : DialogNode)
    (done pending : List DialogNode) : Prop where
  mem : ∀ x ∈ done ++ pending, x ∈ L
  headRoot : (done ++ pending).head? = some root
  reachAll : ∀ x ∈ done ++ pending, ∃ d, reachD L root d x
  nodupIds : ((done ++ pending).map (fun n => n.dialog_node)).Nodup
  parentBefore : ∀ c ∈ done ++ pending, c ≠ root →
    ∃ pre p suf, done ++ pending = pre ++ p :: suf ∧
      c.parent = some p.dialog_node ∧ c ∈ suf ∧ p ∈ done
  closedDone : ∀ p ∈ done, ∀ c ∈ L,
    c.parent = some p.dialog_node → c ∈ done ++ pending
  depthPW : (done ++ pending).Pairwise (depthLE L root)
  frontier : ∀ f, pending.head? = some f → ∀ a ∈ done ++ pending,
    ∀ da df, reachD L root da a → reachD L root df f → da ≤ df + 1

/-- Concrete node with two children below, used by the concrete instances in
this file. -/
def nodeA : DialogNode :=
  ⟨"a", some "Title A", none, none, some "di", some "do", some "ds"⟩

/-- Concrete child of nodeA. -/
def nodeB : DialogNode :=
  ⟨"bb", some "Title B", some "a", none, none, none, none⟩

/-- Concrete child of nodeB with an absent title. -/
def nodeC : DialogNode :=
  ⟨"ccc", none, some "bb", none, none, none, none⟩

/-- Concrete node unrelated to nodeA. -/
def nodeD : DialogNode :=
  ⟨"dddd", some "Elsewhere", none, none, none, none, none⟩

/-- Concrete export list: a two-level branch below nodeA plus one unrelated
top-level node. -/
def sampleNodes : List DialogNode := [nodeA, nodeB, nodeC, nodeD]

/-- Concrete node whose id is literally root. -/
def rootNamedNode : DialogNode :=
  ⟨"root", some "Welcome", none, none, none, none, none⟩

/-- Concrete node whose id is the string none while its title is present. -/
def idNoneNode : DialogNode :=
  ⟨"none", some "Greeting", none, none, none, none, none⟩

/-- Concrete node with an absent title. -/
def titlelessNode : DialogNode :=
  ⟨"b", none, none, none, none, none, none⟩

/-- Concrete list where an id collides with the stringified absent title of
a later node. -/
def c10List : List DialogNode := [idNoneNode, titlelessNode]

theorem sample_subtree_eval : subtree sampleNodes nodeA = [nodeA, nodeB, nodeC] := by
  decide

theorem find_loop_of_first_match (i : String) (pre : List DialogNode)
    (n : DialogNode) (suf : List DialogNode)
    (hpre : ∀ m ∈ pre, node_matches i m = false)
    (hn : node_matches i n = true) :
    find_loop i (pre ++ n :: suf) = some n := by
  induction pre with
  | nil => simp [find_loop, hn]
  | cons m rest ih =>
    have hm : node_matches i m = false := hpre m (by simp)
    simp only [List.cons_append, find_loop, hm, Bool.false_eq_true, if_false]
    exact ih fun x hx => hpre x (by simp [hx])

theorem find_loop_none (i : String) (L : List DialogNode)
    (h : ∀ m ∈ L, node_matches i m = false) : find_loop i L = none := by
  induction L with
  | nil => rfl
  | cons m rest ih =>
    have hm : node_matches i m = false := h m (by simp)
    simp only [find_loop, hm, Bool.false_eq_true, if_false]
    exact ih fun x hx => h x (by simp [hx])

/-- C4: for every node list and identifier, the literal identifier root
resolves to no node; any other identifier resolves to the first node of the
list matching it case-insensitively on id or stringified title, and to no
node when nothing matches. -/
theorem find_node_contract (L : List DialogNode) (i : String) :
    (i = "root" → _find_node i L = none) ∧
    (i ≠ "root" →
      (∀ pre n suf, L = pre ++ n :: suf → node_matches i n = true →
        (∀ m ∈ pre, node_matches i m = false) → _find_node i L = some n) ∧
      ((∀ n ∈ L, node_matches i n = false) → _find_node i L = none)) := by
  refine ⟨fun h => by simp [_find_node, h], fun h => ⟨?_, ?_⟩⟩
  · intro pre n suf hL hn hpre
    subst hL
    rw [_find_node, if_neg h]
    exact find_loop_of_first_match i pre n suf hpre hn
  · intro hnone
    rw [_find_node, if_neg h]
    exact find_loop_none i L hnone

theorem find_node_contract_witness :
    _find_node "root" sampleNodes = none ∧
    _find_node "TITLE B" sampleNodes = some nodeB ∧
    _find_node "zzz" sampleNodes = none := by
  refine ⟨(find_node_contract sampleNodes "root").1 rfl, ?_, ?_⟩
  · exact ((find_node_contract sampleNodes "TITLE B").2 (by decide)).1
      [nodeA] nodeB [nodeC, nodeD] rfl (by decide) (by decide)
  · exact ((find_node_contract sampleNodes "zzz").2 (by decide)).2 (by decide)

/-- C9: the root sentinel check of _find_node is case-sensitive: for the
identifiers Root and ROOT the sentinel branch is skipped and the ordinary
case-insensitive search loop runs, so an actual node can be returned; on the
same list the all-lowercase identifier root returns no match. -/
theorem root_sentinel_case_sensitive :
    (∀ L, _find_node "Root" L = find_loop "Root" L ∧
          _find_node "ROOT" L = find_loop "ROOT" L) ∧
    _find_node "Root" [rootNamedNode] = some rootNamedNode ∧
    _find_node "root" [rootNamedNode] = none := by
  refine ⟨fun L => ⟨?_, ?_⟩, by decide, by decide⟩
  · rw [_find_node, if_neg (by decide)]
  · rw [_find_node, if_neg (by decide)]

/-- C10 counterexample: in a list whose unique node with an absent title is
the second entry, _find_node with identifier none returns the first entry,
whose id is the string none, not the titleless node the claim names. -/
theorem stringified_title_counterexample :
    titlelessNode.title = none ∧
    (∀ m ∈ c10List, m.title = none → m = titlelessNode) ∧
    _find_node "none" c10List = some idNoneNode ∧
    idNoneNode ≠ titlelessNode := by decide

/-- C10 amended: a node with an absent title matches the identifier none in
any letter case, because str() of the absent title is the string None; so
the first titleless node is returned provided no earlier node of the list
also matches the identifier. -/
theorem titleless_matches_none (pre suf : List DialogNode) (n : DialogNode)
    (i : String) (hi : pyLower i = "none") (ht : n.title = none)
    (hpre : ∀ m ∈ pre, node_matches i m = false) :
    _find_node i (pre ++ n :: suf) = some n := by
  have hiroot : i ≠ "root" := by
    intro h
    rw [h] at hi
    exact absurd hi (by decide)
  have hNone : pyLower "None" = "none" := by decide
  have hn : node_matches i n = true := by
    simp [node_matches, ht, pyStr, hNone, hi]
  rw [_find_node, if_neg hiroot]
  exact find_loop_of_first_match i pre n suf hpre hn

theorem titleless_matches_none_witness :
    (pyLower "NONE" = "none") ∧ titlelessNode.title = none ∧
    _find_node "NONE" [titlelessNode] = some titlelessNode := by
  refine ⟨by decide, rfl, ?_⟩
  exact titleless_matches_none [] [] titlelessNode "NONE" (by decide) rfl
    (by simp)

/-- C2: the reparent step sets the parent and previous_sibling of the source
root exactly per the decision table: unresolved target clears both; a
resolved target with mode sibling takes the parent of the target and the
target id as previous sibling; a resolved target with mode child takes the
target id as parent and clears the previous sibling. -/
theorem set_parent_sibling_table (mode : String) (t : Option DialogNode)
    (src : DialogNode) (hm : mode = "sibling" ∨ mode = "child") :
    (t = none → set_parent_sibling mode t src =
      { src with parent := none, previous_sibling := none }) ∧
    (∀ tr, t = some tr →
      (mode = "sibling" →
        (set_parent_sibling mode t src).parent = tr.parent ∧
        (set_parent_sibling mode t src).previous_sibling =
          some tr.dialog_node) ∧
      (mode = "child" →
        (set_parent_sibling mode t src).parent = some tr.dialog_node ∧
        (set_parent_sibling mode t src).previous_sibling = none)) := by
  clear hm
  constructor
  · rintro rfl
    rfl
  · rintro tr rfl
    constructor
    · rintro rfl
      simp [set_parent_sibling]
    · rintro rfl
      simp [set_parent_sibling]

theorem set_parent_sibling_table_witness :
    (("child" : String) = "sibling" ∨ ("child" : String) = "child") ∧
    (set_parent_sibling "child" (some nodeD) nodeB).parent =
      some nodeD.dialog_node ∧
    (set_parent_sibling "child" (some nodeD) nodeB).previous_sibling =
      none :=
  ⟨Or.inr rfl,
   ((set_parent_sibling_table "child" (some nodeD) nodeB
      (Or.inr rfl)).2 nodeD rfl).2 rfl⟩

theorem digress_clear_cond_false (mode : String) (t : Option DialogNode) :
    digress_clear_cond mode t = false ↔
      mode = "sibling" ∧ ∃ tr, t = some tr ∧ tr.parent = none := by
  cases t with
  | none => simp [digress_clear_cond]
  | some tr =>
    cases hp : tr.parent with
    | none => simp [digress_clear_cond, hp]
    | some p => simp [digress_clear_cond, hp]

/-- C3: the three digression fields of the source root are cleared unless
the insertion mode is sibling, a target node was resolved, and that target
itself has no parent; in exactly that one case the source root is left
unchanged. -/
theorem digression_clear_rule (mode : String) (t : Option DialogNode)
    (src : DialogNode) :
    ((mode = "sibling" ∧ ∃ tr, t = some tr ∧ tr.parent = none) →
      strip_digressions mode t src = src) ∧
    (¬(mode = "sibling" ∧ ∃ tr, t = some tr ∧ tr.parent = none) →
      (strip_digressions mode t src).digress_in = none ∧
      (strip_digressions mode t src).digress_out = none ∧
      (strip_digressions mode t src).digress_out_slots = none) := by
  constructor
  · intro h
    have hc : digress_clear_cond mode t = false :=
      (digress_clear_cond_false mode t).mpr h
    simp [strip_digressions, hc]
  · intro h
    have hc : digress_clear_cond mode t = true := by
      rcases Bool.eq_false_or_eq_true (digress_clear_cond mode t) with hc | hc
      · exact hc
      · exact absurd ((digress_clear_cond_false mode t).mp hc) h
    simp [strip_digressions, hc]

theorem digression_clear_rule_witness :
    (("sibling" : String) = "sibling" ∧
      ∃ tr, some nodeA = some tr ∧ tr.parent = none) ∧
    strip_digressions "sibling" (some nodeA) nodeA = nodeA ∧
    ((strip_digressions "child" (some nodeA) nodeA).digress_in = none ∧
     (strip_digressions "child" (some nodeA) nodeA).digress_out = none ∧
     (strip_digressions "child" (some nodeA) nodeA).digress_out_slots =
       none) :=
  ⟨⟨rfl, nodeA, rfl, rfl⟩,
   (digression_clear_rule "sibling" (some nodeA) nodeA).1
     ⟨rfl, nodeA, rfl, rfl⟩,
   (digression_clear_rule "child" (some nodeA) nodeA).2
     (by rintro ⟨h, -⟩; exact absurd h (by decide))⟩

/-- C8: load_csv_as_entity_data fails with a validation error exactly when
one of the five required parameters is absent, and in that case its effect
trace is empty: no backup, no CSV read, no remote call has happened. -/
theorem entity_loader_validation (cu cp v w cf : Option String)
    (ce : Bool) (tbf now : String) :
    ((cu = none ∨ cp = none ∨ v = none ∨ w = none ∨ cf = none) ↔
      ∃ msg, (load_csv_as_entity_data cu cp v w cf ce tbf now).2 =
        Except.error msg) ∧
    ((cu = none ∨ cp = none ∨ v = none ∨ w = none ∨ cf = none) →
      (load_csv_as_entity_data cu cp v w cf ce tbf now).1 = []) := by
  cases cu <;> cases cp <;> cases v <;> cases w <;> cases cf <;>
    simp [load_csv_as_entity_data]

theorem entity_loader_validation_witness :
    ((none : Option String) = none ∨ (some "p" : Option String) = none ∨
      (some "v" : Option String) = none ∨
      (some "w" : Option String) = none ∨
      (some "f" : Option String) = none) ∧
    (load_csv_as_entity_data none (some "p") (some "v") (some "w")
      (some "f") false "b.json" "123").1 = [] ∧
    (∃ msg, (load_csv_as_entity_data none (some "p") (some "v") (some "w")
      (some "f") false "b.json" "123").2 = Except.error msg) :=
  ⟨Or.inl rfl,
   (entity_loader_validation none (some "p") (some "v") (some "w")
      (some "f") false "b.json" "123").2 (Or.inl rfl),
   (entity_loader_validation none (some "p") (some "v") (some "w")
      (some "f") false "b.json" "123").1.mp (Or.inl rfl)⟩

theorem mem_children {L : List DialogNode} {i : String} {c : DialogNode} :
    c ∈ children L i ↔ c ∈ L ∧ c.parent = some i := by
  simp [children, List.mem_filter]

theorem head?_append_cons {α : Type} (l : List α) (a : α) (t t' : List α) :
    (l ++ a :: t).head? = (l ++ a :: t').head? := by
  cases l <;> simp

theorem collect_loop_append (L : List DialogNode) :
    ∀ fuel acc q, ∃ t, collect_loop L fuel acc q = acc ++ t := by
  intro fuel
  induction fuel with
  | zero => exact fun acc q => ⟨[], by simp [collect_loop]⟩
  | succ n ih =>
    intro acc q
    cases q with
    | nil => exact ⟨[], by simp [collect_loop]⟩
    | cons i rest =>
      obtain ⟨t, ht⟩ := ih (acc ++ children L i)
        (rest ++ (children L i).map fun n => n.dialog_node)
      exact ⟨children L i ++ t, by
        rw [collect_loop, ht, List.append_assoc]⟩

theorem reachD_mem {L : List DialogNode} {root x : DialogNode} {d : Nat}
    (hroot : root ∈ L) (h : reachD L root d x) : x ∈ L := by
  induction h with
  | refl => exact hroot
  | step _ hy _ _ => exact hy

theorem reachD_rank_le {L : List DialogNode} {root : DialogNode}
    (hroot : root ∈ L) (rk : String → Nat)
    (hrk : ∀ m ∈ L, ∀ n ∈ L, m.parent = some n.dialog_node →
      rk n.dialog_node < rk m.dialog_node) :
    ∀ {d : Nat} {x : DialogNode}, reachD L root d x →
      rk root.dialog_node ≤ rk x.dialog_node := by
  intro d x h
  induction h with
  | refl => exact le_refl _
  | @step e x y h1 hy hp ih =>
    exact le_trans ih (le_of_lt (hrk y hy x (reachD_mem hroot h1) hp))

theorem reachD_unique {L : List DialogNode} {root : DialogNode}
    (hroot : root ∈ L)
    (hids : (L.map fun n => n.dialog_node).Nodup) (rk : String → Nat)
    (hrk : ∀ m ∈ L, ∀ n ∈ L, m.parent = some n.dialog_node →
      rk n.dialog_node < rk m.dialog_node) :
    ∀ {d : Nat} {x : DialogNode}, reachD L root d x →
      ∀ {e : Nat}, reachD L root e x → d = e := by
  intro d x h
  induction h with
  | refl =>
    intro e h'
    cases h' with
    | refl => rfl
    | @step e0 x0 _ h1 hy hp =>
      exfalso
      have hlt : rk x0.dialog_node < rk root.dialog_node :=
        hrk root hroot x0 (reachD_mem hroot h1) hp
      have hle : rk root.dialog_node ≤ rk x0.dialog_node :=
        reachD_rank_le hroot rk hrk h1
      omega
  | @step e x y h1 hy hp ih =>
    intro d' h'
    cases h' with
    | refl =>
      exfalso
      have hlt : rk x.dialog_node < rk root.dialog_node :=
        hrk root hroot x (reachD_mem hroot h1) hp
      have hle : rk root.dialog_node ≤ rk x.dialog_node :=
        reachD_rank_le hroot rk hrk h1
      omega
    | @step e' x' _ h1' hy' hp' =>
      have hxx : x = x' := by
        refine List.inj_on_of_nodup_map hids (reachD_mem hroot h1)
          (reachD_mem hroot h1') ?_
        rw [hp'] at hp
        exact (Option.some.inj hp).symm
      subst hxx
      have he := ih h1'
      omega

theorem loopInv_step (L : List DialogNode) (root : DialogNode)
    (hroot : root ∈ L) (hids : (L.map fun n => n.dialog_node).Nodup)
    (rk : String → Nat)
    (hrk : ∀ m ∈ L, ∀ n ∈ L, m.parent = some n.dialog_node →
      rk n.dialog_node < rk m.dialog_node)
    (done : List DialogNode) (f : DialogNode) (rest : List DialogNode)
    (hInv : LoopInv L root done (f :: rest)) :
    LoopInv L root (done ++ [f]) (rest ++ children L f.dialog_node) ∧
    ((done ++ f :: rest) ++ children L f.dialog_node).length ≤ L.length := by
  have uniq := @reachD_unique L root hroot hids rk hrk
  have eqA : (done ++ [f]) ++ (rest ++ children L f.dialog_node) =
      (done ++ f :: rest) ++ children L f.dialog_node := by simp
  have hfacc : f ∈ done ++ f :: rest := by simp
  have hfL : f ∈ L := hInv.mem f hfacc
  obtain ⟨df, hdf⟩ := hInv.reachAll f hfacc
  have hcreach : ∀ c ∈ children L f.dialog_node, reachD L root (df + 1) c :=
    fun c hc => reachD.step hdf (mem_children.mp hc).1 (mem_children.mp hc).2
  have haccnodup : (done ++ f :: rest).Nodup :=
    hInv.nodupIds.of_map (fun n => n.dialog_node)
  have hfnotdone : f ∉ done := by
    intro hfd
    exact (List.nodup_append.mp haccnodup).2.2 hfd (by simp)
  have hnoNew : ∀ c ∈ children L f.dialog_node, c ∉ done ++ f :: rest := by
    intro c hc hmem
    obtain ⟨hcL, hcp⟩ := mem_children.mp hc
    rcases eq_or_ne c root with rfl | hne
    · have h1 := reachD.step hdf hcL hcp
      have h0 := uniq h1 reachD.refl
      omega
    · obtain ⟨pre, p, suf, hsplit, hcp', hcsuf, hpdone⟩ :=
        hInv.parentBefore c hmem hne
      have hpacc : p ∈ done ++ f :: rest := by rw [hsplit]; simp
      have hpL : p ∈ L := hInv.mem p hpacc
      have hpid : p.dialog_node = f.dialog_node := by
        rw [hcp'] at hcp
        exact Option.some.inj hcp
      have hpf : p = f := List.inj_on_of_nodup_map hids hpL hfL hpid
      rw [hpf] at hpdone
      exact hfnotdone hpdone
  have hcsNodupIds :
      ((children L f.dialog_node).map fun n => n.dialog_node).Nodup :=
    List.Nodup.sublist ((List.filter_sublist L).map _) hids
  have hNewNodupIds : (((done ++ f :: rest) ++ children L f.dialog_node).map
      fun n => n.dialog_node).Nodup := by
    rw [List.map_append, List.nodup_append]
    refine ⟨hInv.nodupIds, hcsNodupIds, ?_⟩
    intro s hs hs'
    obtain ⟨a, ha, rfl⟩ := List.mem_map.mp hs
    obtain ⟨c, hc, hcid⟩ := List.mem_map.mp hs'
    have haL : a ∈ L := hInv.mem a ha
    have hcL : c ∈ L := (mem_children.mp hc).1
    have hca : c = a := List.inj_on_of_nodup_map hids hcL haL hcid
    exact hnoNew c hc (hca ▸ ha)
  have hlen : ((done ++ f :: rest) ++ children L f.dialog_node).length ≤
      L.length := by
    have hsub : (((done ++ f :: rest) ++ children L f.dialog_node).map
        fun n => n.dialog_node) ⊆ L.map fun n => n.dialog_node := by
      intro s hs
      obtain ⟨a, ha, rfl⟩ := List.mem_map.mp hs
      refine List.mem_map.mpr ⟨a, ?_, rfl⟩
      rcases List.mem_append.mp ha with h | h
      · exact hInv.mem a h
      · exact (mem_children.mp h).1
    have hle := (List.subperm_of_subset hNewNodupIds hsub).length_le
    simpa using hle
  refine ⟨?_, hlen⟩
  refine { mem := ?_, headRoot := ?_, reachAll := ?_, nodupIds := ?_,
           parentBefore := ?_, closedDone := ?_, depthPW := ?_,
           frontier := ?_ }
  · rw [eqA]
    intro x hx
    rcases List.mem_append.mp hx with h | h
    · exact hInv.mem x h
    · exact (mem_children.mp h).1
  · have e2 : (done ++ [f]) ++ (rest ++ children L f.dialog_node) =
        done ++ f :: (rest ++ children L f.dialog_node) := by simp
    rw [e2, head?_append_cons done f (rest ++ children L f.dialog_node) rest]
    exact hInv.headRoot
  · rw [eqA]
    intro x hx
    rcases List.mem_append.mp hx with h | h
    · exact hInv.reachAll x h
    · exact ⟨df + 1, hcreach x h⟩
  · rw [eqA]
    exact hNewNodupIds
  · rw [eqA]
    intro c hc hcne
    rcases List.mem_append.mp hc with h | h
    · obtain ⟨pre, p, suf, hsplit, hpar, hsuf, hpdone⟩ :=
        hInv.parentBefore c h hcne
      refine ⟨pre, p, suf ++ children L f.dialog_node, ?_, hpar, ?_, ?_⟩
      · rw [hsplit]; simp
      · exact List.mem_append.mpr (Or.inl hsuf)
      · exact List.mem_append.mpr (Or.inl hpdone)
    · refine ⟨done, f, rest ++ children L f.dialog_node, by simp,
        (mem_children.mp h).2, ?_, by simp⟩
      exact List.mem_append.mpr (Or.inr h)
  · rw [eqA]
    intro p hp c hcL hcp
    rcases List.mem_append.mp hp with h | h
    · exact List.mem_append.mpr (Or.inl (hInv.closedDone p h c hcL hcp))
    · have hpf : p = f := by simpa using h
      refine List.mem_append.mpr (Or.inr (mem_children.mpr ⟨hcL, ?_⟩))
      rw [hpf] at hcp
      exact hcp
  · rw [eqA]
    rw [List.pairwise_append]
    refine ⟨hInv.depthPW, ?_, ?_⟩
    · refine List.pairwise_of_forall_mem_list ?_
      intro a ha b hb da db hda hdb
      have h1 : da = df + 1 := uniq hda (hcreach a ha)
      have h2 : db = df + 1 := uniq hdb (hcreach b hb)
      omega
    · intro a ha b hb da db hda hdb
      have h2 : db = df + 1 := uniq hdb (hcreach b hb)
      have h3 : da ≤ df + 1 := hInv.frontier f rfl a ha da df hda hdf
      omega
  · rw [eqA]
    intro g hg a ha da dg hda hdg
    cases rest with
    | cons r rest2 =>
      have hgr : r = g := by simpa using hg
      have hpwtail : (f :: r :: rest2).Pairwise (depthLE L root) :=
        (List.pairwise_append.mp hInv.depthPW).2.1
      have hfr : depthLE L root f r :=
        List.rel_of_pairwise_cons hpwtail (by simp)
      have hdr : reachD L root dg r := by rw [hgr]; exact hdg
      have hle : df ≤ dg := hfr df dg hdf hdr
      rcases List.mem_append.mp ha with h | h
      · have h4 := hInv.frontier f rfl a h da df hda hdf
        omega
      · have h4 : da = df + 1 := uniq hda (hcreach a h)
        omega
    | nil =>
      have hgcs : g ∈ children L f.dialog_node := by
        rcases hcseq : children L f.dialog_node with _ | ⟨c0, cs2⟩
        · rw [hcseq] at hg
          simp at hg
        · rw [hcseq] at hg
          simp at hg
          rw [← hg]
          exact List.mem_cons_self c0 cs2
      have hdg' : dg = df + 1 := uniq hdg (hcreach g hgcs)
      rcases List.mem_append.mp ha with h | h
      · have h4 := hInv.frontier f rfl a h da df hda hdf
        omega
      · have h4 : da = df + 1 := uniq hda (hcreach a h)
        omega

theorem collect_loop_inv (L : List DialogNode) (root : DialogNode)
    (hroot : root ∈ L) (hids : (L.map fun n => n.dialog_node).Nodup)
    (rk : String → Nat)
    (hrk : ∀ m ∈ L, ∀ n ∈ L, m.parent = some n.dialog_node →
      rk n.dialog_node < rk m.dialog_node) :
    ∀ fuel done pending, LoopInv L root done pending →
      pending.length + (L.length - (done ++ pending).length) ≤ fuel →
      ∃ doneF, collect_loop L fuel (done ++ pending)
          (pending.map fun n => n.dialog_node) = doneF ∧
        LoopInv L root doneF [] := by
  intro fuel
  induction fuel with
  | zero =>
    intro done pending hInv hpot
    have hp0 : pending = [] := by
      cases pending with
      | nil => rfl
      | cons a l => simp at hpot
    subst hp0
    exact ⟨done, by simp [collect_loop], hInv⟩
  | succ n ih =>
    intro done pending hInv hpot
    cases pending with
    | nil =>
      exact ⟨done, by simp [collect_loop], hInv⟩
    | cons f rest =>
      obtain ⟨hInv', hlen⟩ := loopInv_step L root hroot hids rk hrk
        done f rest hInv
      have hstep : collect_loop L (n + 1) (done ++ f :: rest)
          ((f :: rest).map fun x => x.dialog_node) =
          collect_loop L n
            ((done ++ [f]) ++ (rest ++ children L f.dialog_node))
            ((rest ++ children L f.dialog_node).map fun x => x.dialog_node) := by
        show collect_loop L (n + 1) (done ++ f :: rest)
            (f.dialog_node :: rest.map fun x => x.dialog_node) = _
        rw [collect_loop]
        congr 1 <;> simp
      have hpot' : (rest ++ children L f.dialog_node).length +
          (L.length -
            ((done ++ [f]) ++ (rest ++ children L f.dialog_node)).length) ≤
          n := by
        simp only [List.length_append, List.length_cons] at hlen hpot ⊢
        omega
      obtain ⟨doneF, heq, hInvF⟩ :=
        ih (done ++ [f]) (rest ++ children L f.dialog_node) hInv' hpot'
      exact ⟨doneF, by rw [hstep]; exact heq, hInvF⟩

/-- C1: on an acyclic forest with distinct node ids, the collection loop of
copy_dialog_data returns exactly the root together with all nodes
transitively reachable from it along the parent back-relation, with the root
first, no node twice, every non-root node strictly after its parent, and the
output ordered breadth-first (depths never decrease along the output). -/
theorem subtree_collect_spec (L : List DialogNode) (root : DialogNode)
    (hroot : root ∈ L) (hids : (L.map fun n => n.dialog_node).Nodup)
    (hacyc : acyclicForest L) :
    (∀ x, x ∈ subtree L root ↔ reachable L root x) ∧
    (subtree L root).head? = some root ∧
    ((subtree L root).map fun n => n.dialog_node).Nodup ∧
    (∀ c ∈ subtree L root, c ≠ root →
      ∃ pre p suf, subtree L root = pre ++ p :: suf ∧
        c.parent = some p.dialog_node ∧ c ∈ suf) ∧
    (subtree L root).Pairwise (depthLE L root) := by
  obtain ⟨rk, hrk⟩ := hacyc
  have uniq := @reachD_unique L root hroot hids rk hrk
  have hInv0 : LoopInv L root [] [root] := by
    refine { mem := ?_, headRoot := ?_, reachAll := ?_, nodupIds := ?_,
             parentBefore := ?_, closedDone := ?_, depthPW := ?_,
             frontier := ?_ }
    · intro x hx
      have : x = root := by simpa using hx
      rw [this]
      exact hroot
    · simp
    · intro x hx
      have : x = root := by simpa using hx
      rw [this]
      exact ⟨0, reachD.refl⟩
    · simp
    · intro c hc hcne
      have : c = root := by simpa using hc
      exact absurd this hcne
    · intro p hp
      simp at hp
    · simp [List.pairwise_cons]
    · intro g hg a ha da dg hda hdg
      have hgr : root = g := by simpa using hg
      have har : a = root := by simpa using ha
      rw [← hgr] at hdg
      rw [har] at hda
      have h1 : da = 0 := uniq hda reachD.refl
      omega
  have hpot0 : ([root] : List DialogNode).length +
      (L.length - (([] : List DialogNode) ++ [root]).length) ≤ L.length := by
    have hpos : 0 < L.length := List.length_pos_of_mem hroot
    simp
    omega
  obtain ⟨doneF, heq, hInvF⟩ := collect_loop_inv L root hroot hids rk hrk
    L.length [] [root] hInv0 hpot0
  have hsub : subtree L root = doneF := by
    rw [subtree, ← heq]
    simp
  have hmemF := hInvF.mem
  have headF := hInvF.headRoot
  have reachF := hInvF.reachAll
  have nodupF := hInvF.nodupIds
  have pbF := hInvF.parentBefore
  have cdF := hInvF.closedDone
  have pwF := hInvF.depthPW
  rw [List.append_nil] at hmemF headF reachF nodupF pbF cdF pwF
  have hrootmem : root ∈ doneF := by
    cases hD : doneF with
    | nil =>
      rw [hD] at headF
      simp at headF
    | cons a t =>
      rw [hD] at headF
      simp at headF
      subst headF
      exact List.mem_cons_self _ _
  refine ⟨?_, by rw [hsub]; exact headF, by rw [hsub]; exact nodupF,
    ?_, by rw [hsub]; exact pwF⟩
  · intro x
    rw [hsub]
    constructor
    · intro hx
      exact reachF x hx
    · rintro ⟨d, hd⟩
      induction hd with
      | refl => exact hrootmem
      | @step e u y h1 hy hp ihh =>
        exact cdF u ihh y hy hp
  · intro c hc hcne
    rw [hsub] at hc ⊢
    obtain ⟨pre, p, suf, hsplit, hpar, hsuf, hpdone⟩ := pbF c hc hcne
    exact ⟨pre, p, suf, hsplit, hpar, hsuf⟩

theorem subtree_collect_spec_witness :
    nodeA ∈ sampleNodes ∧
    ((sampleNodes.map fun n => n.dialog_node).Nodup) ∧
    acyclicForest sampleNodes ∧
    ((∀ x, x ∈ subtree sampleNodes nodeA ↔ reachable sampleNodes nodeA x) ∧
     (subtree sampleNodes nodeA).head? = some nodeA ∧
     ((subtree sampleNodes nodeA).map fun n => n.dialog_node).Nodup ∧
     (∀ c ∈ subtree sampleNodes nodeA, c ≠ nodeA →
       ∃ pre p suf, subtree sampleNodes nodeA = pre ++ p :: suf ∧
         c.parent = some p.dialog_node ∧ c ∈ suf) ∧
     (subtree sampleNodes nodeA).Pairwise (depthLE sampleNodes nodeA)) :=
  ⟨by decide, by decide, ⟨fun s => s.length, by decide⟩,
   subtree_collect_spec sampleNodes nodeA (by decide) (by decide)
     ⟨fun s => s.length, by decide⟩⟩

theorem find_loop_eq_split (i : String) (L : List DialogNode) :
    find_loop i L = (find_split i L).map fun x => x.2.1 := by
  induction L with
  | nil => rfl
  | cons n rest ih =>
    cases hnm : node_matches i n with
    | true => simp [find_loop, find_split, hnm]
    | false =>
      simp only [find_loop, find_split, hnm, Bool.false_eq_true, if_false]
      cases hs : find_split i rest with
      | none => simp [ih, hs]
      | some x =>
        obtain ⟨p1, p2, p3⟩ := x
        simp [ih, hs]

theorem find_node_eq_split (i : String) (L : List DialogNode) :
    _find_node i L = (find_node_split i L).map fun x => x.2.1 := by
  rw [_find_node, find_node_split]
  by_cases h : i = "root"
  · simp [h]
  · simp [h, find_loop_eq_split]

theorem find_node_none_iff (i : String) (L : List DialogNode) :
    _find_node i L = none ↔ find_node_split i L = none := by
  rw [find_node_eq_split]
  cases find_node_split i L <;> simp

/-- C6: with the final update succeeding, copy_dialog_data fails exactly
when the source root identifier resolves to no node of the source export
(which covers the literal identifier root), and on that failure the request
trace holds only the two workspace exports: no delete and no update request
has been issued, so the target workspace is unchanged. -/
theorem copy_error_iff_root_missing (root_node target_node mode sw tw : String)
    (src_nodes tgt_nodes : List DialogNode) (delete_ok : String → Bool) :
    ((∃ msg, (copy_dialog_data root_node target_node mode sw tw src_nodes
        tgt_nodes delete_ok true).2 = Except.error msg) ↔
      _find_node root_node src_nodes = none) ∧
    (_find_node root_node src_nodes = none →
      (copy_dialog_data root_node target_node mode sw tw src_nodes tgt_nodes
        delete_ok true).1 =
        [WcsRequest.getWorkspace sw, WcsRequest.getWorkspace tw]) := by
  cases hfs : find_node_split root_node src_nodes with
  | none =>
    have hfn : _find_node root_node src_nodes = none :=
      (find_node_none_iff root_node src_nodes).mpr hfs
    constructor
    · constructor
      · intro _
        exact hfn
      · intro _
        exact ⟨"Specified root node not found", by simp [copy_dialog_data, hfs]⟩
    · intro _
      simp [copy_dialog_data, hfs]
  | some x =>
    obtain ⟨pre, r0, suf⟩ := x
    have hfn : _find_node root_node src_nodes ≠ none := by
      rw [find_node_eq_split, hfs]
      simp
    constructor
    · constructor
      · rintro ⟨msg, hmsg⟩
        simp [copy_dialog_data, hfs] at hmsg
      · intro h
        exact absurd h hfn
    · intro h
      exact absurd h hfn

theorem copy_error_iff_root_missing_witness :
    _find_node "root" sampleNodes = none ∧
    (copy_dialog_data "root" "tgt" "sibling" "sw" "tw" sampleNodes []
      (fun _ => true) true).1 =
      [WcsRequest.getWorkspace "sw", WcsRequest.getWorkspace "tw"] ∧
    (∃ msg, (copy_dialog_data "root" "tgt" "sibling" "sw" "tw" sampleNodes []
      (fun _ => true) true).2 = Except.error msg) :=
  ⟨by decide,
   (copy_error_iff_root_missing "root" "tgt" "sibling" "sw" "tw" sampleNodes
      [] (fun _ => true)).2 (by decide),
   (copy_error_iff_root_missing "root" "tgt" "sibling" "sw" "tw" sampleNodes
      [] (fun _ => true)).1.mpr (by decide)⟩

theorem conflict_clear_map (h : String → Bool) (tw : String)
    (ns : List DialogNode) :
    conflict_clear h tw ns =
      ns.map fun n => WcsRequest.deleteDialogNode tw n.dialog_node := by
  induction ns with
  | nil => rfl
  | cons n rest ih =>
    by_cases hb : h n.dialog_node <;> simp [conflict_clear, hb, ih]

/-- C7: when the source root resolves, copy_dialog_data issues exactly one
delete request per node of the collected subtree (in collection order) and
then the single batch update; the delete responses are swallowed, so the
whole run is identical under any two delete-failure patterns and the update
request is always reached. -/
theorem conflict_clear_swallows_failures (root_node target_node mode sw tw :
      String)
    (src_nodes tgt_nodes : List DialogNode) (f g : String → Bool) (u : Bool)
    (pre : List DialogNode) (root0 : DialogNode) (suf : List DialogNode)
    (hfind : find_node_split root_node src_nodes = some (pre, root0, suf)) :
    copy_dialog_data root_node target_node mode sw tw src_nodes tgt_nodes
        f u =
      copy_dialog_data root_node target_node mode sw tw src_nodes tgt_nodes
        g u ∧
    ∃ ti,
      (copy_dialog_data root_node target_node mode sw tw src_nodes tgt_nodes
        f u).1 =
        [WcsRequest.getWorkspace sw, WcsRequest.getWorkspace tw] ++
          (ti.map fun n => WcsRequest.deleteDialogNode tw n.dialog_node) ++
          [WcsRequest.updateWorkspaceAppend tw ti] ∧
      (u = true →
        (copy_dialog_data root_node target_node mode sw tw src_nodes
          tgt_nodes f u).2 = Except.ok ti) := by
  constructor
  · simp [copy_dialog_data, hfind, conflict_clear_map]
  · refine ⟨subtree
      (pre ++ set_parent_sibling (pyLower mode)
          (_find_node target_node tgt_nodes)
          (strip_digressions (pyLower mode)
            (_find_node target_node tgt_nodes) root0) :: suf)
      (set_parent_sibling (pyLower mode) (_find_node target_node tgt_nodes)
        (strip_digressions (pyLower mode)
          (_find_node target_node tgt_nodes) root0)), ?_, ?_⟩
    · simp [copy_dialog_data, hfind, conflict_clear_map]
    · intro hu
      subst hu
      simp [copy_dialog_data, hfind]

theorem conflict_clear_swallows_failures_witness :
    find_node_split "Title A" sampleNodes =
      some ([], nodeA, [nodeB, nodeC, nodeD]) ∧
    (copy_dialog_data "Title A" "root" "child" "sw" "tw" sampleNodes []
        (fun _ => false) true =
      copy_dialog_data "Title A" "root" "child" "sw" "tw" sampleNodes []
        (fun _ => true) true) ∧
    (∃ ti,
      (copy_dialog_data "Title A" "root" "child" "sw" "tw" sampleNodes []
        (fun _ => false) true).1 =
        [WcsRequest.getWorkspace "sw", WcsRequest.getWorkspace "tw"] ++
          (ti.map fun n => WcsRequest.deleteDialogNode "tw" n.dialog_node) ++
          [WcsRequest.updateWorkspaceAppend "tw" ti] ∧
      (true = true →
        (copy_dialog_data "Title A" "root" "child" "sw" "tw" sampleNodes []
          (fun _ => false) true).2 = Except.ok ti)) := by
  have X := conflict_clear_swallows_failures "Title A" "root" "child" "sw"
    "tw" sampleNodes [] (fun _ => false) (fun _ => true) true
    [] nodeA [nodeB, nodeC, nodeD] (by decide)
  exact ⟨by decide, X.1, X.2⟩

theorem strip_digressions_parent (mode : String) (t : Option DialogNode)
    (s : DialogNode) :
    (strip_digressions mode t s).parent = s.parent ∧
    (strip_digressions mode t s).previous_sibling = s.previous_sibling := by
  by_cases hc : digress_clear_cond mode t <;> simp [strip_digressions, hc]

/-- C5: the insertion mode is lowercased before comparison, and when the
lowercased mode is neither sibling nor child while a target node was
resolved, copy_dialog_data silently keeps the original parent and
previous_sibling of the source root and raises no error: the run succeeds
and the root of the imported branch carries its original values. -/
theorem insert_mode_fallthrough (root_node target_node mode sw tw : String)
    (src_nodes tgt_nodes : List DialogNode) (delete_ok : String → Bool)
    (h1 : pyLower mode ≠ "sibling") (h2 : pyLower mode ≠ "child")
    (pre : List DialogNode) (root0 : DialogNode) (suf : List DialogNode)
    (hfind : find_node_split root_node src_nodes = some (pre, root0, suf))
    (tr : DialogNode) (htr : _find_node target_node tgt_nodes = some tr) :
    ∃ rest,
      (copy_dialog_data root_node target_node mode sw tw src_nodes tgt_nodes
        delete_ok true).2 =
        Except.ok
          (strip_digressions (pyLower mode) (some tr) root0 :: rest) ∧
      (strip_digressions (pyLower mode) (some tr) root0).parent =
        root0.parent ∧
      (strip_digressions (pyLower mode) (some tr) root0).previous_sibling =
        root0.previous_sibling := by
  have hset : set_parent_sibling (pyLower mode) (some tr)
      (strip_digressions (pyLower mode) (some tr) root0) =
      strip_digressions (pyLower mode) (some tr) root0 := by
    simp [set_parent_sibling, h1, h2]
  obtain ⟨t, ht⟩ := collect_loop_append
    (pre ++ strip_digressions (pyLower mode) (some tr) root0 :: suf)
    (pre ++ strip_digressions (pyLower mode) (some tr) root0 :: suf).length
    [strip_digressions (pyLower mode) (some tr) root0]
    [(strip_digressions (pyLower mode) (some tr) root0).dialog_node]
  refine ⟨t, ?_, (strip_digressions_parent _ _ _).1,
    (strip_digressions_parent _ _ _).2⟩
  simp only [copy_dialog_data, hfind, htr, hset, subtree]
  rw [ht]
  simp

theorem insert_mode_fallthrough_witness :
    pyLower "Parent" ≠ "sibling" ∧ pyLower "Parent" ≠ "child" ∧
    find_node_split "Title A" sampleNodes =
      some ([], nodeA, [nodeB, nodeC, nodeD]) ∧
    _find_node "elsewhere" [nodeD] = some nodeD ∧
    (∃ rest,
      (copy_dialog_data "Title A" "elsewhere" "Parent" "sw" "tw" sampleNodes
        [nodeD] (fun _ => true) true).2 =
        Except.ok
          (strip_digressions (pyLower "Parent") (some nodeD) nodeA :: rest) ∧
      (strip_digressions (pyLower "Parent") (some nodeD) nodeA).parent =
        nodeA.parent ∧
      (strip_digressions (pyLower "Parent")
          (some nodeD) nodeA).previous_sibling =
        nodeA.previous_sibling) := by
  refine ⟨by decide, by decide, by decide, by decide, ?_⟩
  exact insert_mode_fallthrough "Title A" "elsewhere" "Parent" "sw" "tw"
    sampleNodes [nodeD] (fun _ => true) (by decide) (by decide)
    [] nodeA [nodeB, nodeC, nodeD] (by decide) nodeD (by decide)
